import Mathlib

/-!
Verification of the fused aggregation engine of
`torch_geometric/nn/aggr/fused.py` (class `FusedAggregation`).

The embedding models feature values exactly: entries are rationals, so the
floating-point arithmetic of the source is replaced by exact arithmetic, and
the square root taken by the standard-deviation stage is `Real.sqrt`, applied
as a final real-valued layer on top of the otherwise computable pipeline.
A features tensor of shape `N x F` is a list of `N` rows of length `F`;
the group index is a list of `N` naturals; `G` is the number of groups
(`dim_size`).
-/

namespace FusedAggr

/-- The seven fusable aggregation kinds (`FUSABLE_AGGRS` in the source).
Constructor names match the source class names. -/
inductive AggrKind where
  | SumAggregation
  | MeanAggregation
  | MinAggregation
  | MaxAggregation
  | MulAggregation
  | VarAggregation
  | StdAggregation
deriving DecidableEq, Repr

/-- A dense rational matrix, row major. -/
abbrev Mat := List (List ℚ)

/-- The `reduce` options used in the scatter directives
(the string values `'sum'`, `'amin'`, `'amax'`, `'prod'`, `'pow_sum'`). -/
inductive Reduce where
  | sum
  | amin
  | amax
  | prod
  | pow_sum
deriving DecidableEq, Repr

/-- The `REDUCE` table of the source: maps each aggregation kind to the
reduce option of its base scatter pass. -/
def REDUCE : AggrKind → Reduce
  | .SumAggregation => .sum
  | .MeanAggregation => .sum
  | .MinAggregation => .amin
  | .MaxAggregation => .amax
  | .MulAggregation => .prod
  | .VarAggregation => .pow_sum
  | .StdAggregation => .pow_sum

/-- Membership in `DEGREE_BASED_AGGRS`. -/
def DEGREE_BASED : AggrKind → Bool
  | .MeanAggregation => true
  | .VarAggregation => true
  | .StdAggregation => true
  | _ => false

/-- Membership in `MASK_REQUIRED_AGGRS`. -/
def MASK_REQUIRED : AggrKind → Bool
  | .MinAggregation => true
  | .MaxAggregation => true
  | .MulAggregation => true
  | _ => false

/-- Flag `self.need_degree`: true iff some requested kind is degree based. -/
def need_degree (kinds : List AggrKind) : Bool := kinds.any DEGREE_BASED

/-- Flag `self.requires_mask`: true iff some requested kind requires masking. -/
def requires_mask (kinds : List AggrKind) : Bool := kinds.any MASK_REQUIRED

/-- Dictionary `self.aggr_index`: the Python dict comprehension
`{cls: i for i, cls in enumerate(self.aggr_cls)}` maps a class to the index
of its LAST occurrence (later entries overwrite earlier ones); a kind that
does not occur is absent. -/
def aggr_index (kinds : List AggrKind) (cls : AggrKind) : Option ℕ :=
  match kinds with
  | [] => none
  | k :: rest =>
    match aggr_index rest cls with
    | some j => some (j + 1)
    | none => if k = cls then some 0 else none

/-- The entry the `__init__` loop appends to `self.reduce_ops` for class
`cls`: `none` means the kind reuses another kind's intermediate output and
runs no base reduce of its own. -/
def reduce_op1 (kinds : List AggrKind) (cls : AggrKind) : Option Reduce :=
  match cls with
  | .MeanAggregation =>
    if (aggr_index kinds .SumAggregation).isSome then none
    else some (REDUCE .MeanAggregation)
  | .VarAggregation => some (REDUCE .VarAggregation)
  | .StdAggregation =>
    if (aggr_index kinds .VarAggregation).isSome then none
    else some (REDUCE .StdAggregation)
  | k => some (REDUCE k)

/-- The entry the `__init__` loop appends to `self.lookup_ops` for class
`cls`: which `(aggregation, index)` intermediate output this kind reads. -/
def lookup_op1 (kinds : List AggrKind) (cls : AggrKind) :
    Option (AggrKind × ℕ) :=
  match cls with
  | .MeanAggregation =>
    (aggr_index kinds .SumAggregation).map (fun j => (.SumAggregation, j))
  | .VarAggregation =>
    match aggr_index kinds .MeanAggregation with
    | some j => some (.MeanAggregation, j)
    | none =>
      (aggr_index kinds .SumAggregation).map (fun j => (.SumAggregation, j))
  | .StdAggregation =>
    match aggr_index kinds .VarAggregation with
    | some j => some (.VarAggregation, j)
    | none =>
      match aggr_index kinds .MeanAggregation with
      | some j => some (.MeanAggregation, j)
      | none =>
        (aggr_index kinds .SumAggregation).map (fun j => (.SumAggregation, j))
  | _ => none

/-- List `self.reduce_ops`, one entry per requested kind, in request order. -/
def reduce_ops (kinds : List AggrKind) : List (Option Reduce) :=
  kinds.map (reduce_op1 kinds)

/-- List `self.lookup_ops`, one entry per requested kind, in request order. -/
def lookup_ops (kinds : List AggrKind) : List (Option (AggrKind × ℕ)) :=
  kinds.map (lookup_op1 kinds)

/-- Per-group element count: `count.scatter_add_(0, index, ones)` gives, for
group `g`, the number of positions of `index` equal to `g`. -/
def countAt (index : List ℕ) (g : ℕ) : ℕ := index.count g

/-- The clamped count `count.clamp_(min=1)`, as a rational (the source keeps
`count` in the floating dtype of `x`). -/
def clampAt (index : List ℕ) (g : ℕ) : ℚ := max (countAt index g : ℚ) 1

/-- The column of raw values scattered into output cell `(g, f)`: the values
`x[i][f]` over the positions `i` with `index[i] = g`, in row order. -/
def groupVals (x : Mat) (index : List ℕ) (g f : ℕ) : List ℚ :=
  ((index.zip x).filter (fun p => decide (p.1 = g))).map
    (fun p => p.2.getD f 0)

/-- Result of one scatter-reduce cell, fill value and empty-row masking
included.  The source fills the output with the identity of the reduce op
(`0` for sum, `+inf` for amin, `-inf` for amax, `1` for prod), runs the
scatter with `include_self=True`, and then overwrites every row of an empty
group with `0.0` whenever the fill value is nonzero (lines 185-197).  Because
the fill value is the identity of the op, a nonempty cell is the plain fold
of the op over the scattered values, and an empty cell ends up `0` for every
op; the infinite fill values, which never survive the masking, are therefore
not represented. -/
def applyReduce : Reduce → List ℚ → ℚ
  | .sum, vs => vs.foldl (· + ·) 0
  | .amin, vs =>
    match vs with
    | [] => 0
    | v :: rest => rest.foldl min v
  | .amax, vs =>
    match vs with
    | [] => 0
    | v :: rest => rest.foldl max v
  | .prod, vs =>
    match vs with
    | [] => 0
    | vs => vs.foldl (· * ·) 1
  | .pow_sum, vs => (vs.map (fun v => v * v)).foldl (· + ·) 0

/-- A `G x F` matrix given by an entry function. -/
def ofFun (G F : ℕ) (e : ℕ → ℕ → ℚ) : Mat :=
  (List.range G).map (fun g => (List.range F).map (e g))

/-- One base scatter-reduce pass (lines 182-198): a `G x F` matrix whose
cell `(g, f)` reduces the values of group `g` in feature column `f`. -/
def baseSlot (F G : ℕ) (x : Mat) (index : List ℕ) (r : Reduce) : Mat :=
  ofFun G F (fun g f => applyReduce r (groupVals x index g f))

/-- Division of a `G x F` tensor by the clamped per-group count column
(`t / count` with `count` of shape `(G, 1)`): row `g` is divided by
`clampAt index g`. -/
def rowsDiv (index : List ℕ) (m : Mat) : Mat :=
  (List.range m.length).map
    (fun g => (m.getD g []).map (fun v => v / clampAt index g))

/-- Element-wise tensor subtraction. -/
def tSub (a b : Mat) : Mat := List.zipWith (List.zipWith (· - ·)) a b

/-- Element-wise tensor multiplication. -/
def tMul (a b : Mat) : Mat := List.zipWith (List.zipWith (· * ·)) a b

/-- Element-wise `t.relu()`. -/
def tRelu (m : Mat) : Mat := m.map (fun row => row.map (fun v => max v 0))

/-- Element-wise `t + 1e-5`. -/
def tAddEps (m : Mat) : Mat :=
  m.map (fun row => row.map (fun v => v + 1 / 100000))

/-- The error outcomes of a `forward` call.  `configError` models the
constructor's `ValueError` on an empty kind list; `shapeError` the eager
input-shape validation; `assertFail` the `assert tmp_aggr == SumAggregation`
of the Mean stage (line 209); `unsupportedPlan` the `raise
NotImplementedError` branches of the Variance and StdDev stages (lines 228
and 253); `typeError` a `None` intermediate slot being used as a tensor
(including `torch.cat` over a list containing `None`). -/
inductive AggrError where
  | configError
  | shapeError
  | assertFail
  | unsupportedPlan
  | typeError
deriving DecidableEq, Repr

/-- Modelled from the spec: the eager invocation-time shape validation
(`ShapeError`, spec section 7).  The bodies of the `assert_index_present` /
`assert_two_dimensional_input` helpers of the `Aggregation` base class are
not part of the excerpted source; per the spec the engine checks, before any
reduction, that the feature array is a proper 2-D `N x F` array (every row of
length `F`), that the group index has length `N`, and that every group-index
value lies in `[0, G)`. -/
def validInput (F : ℕ) (x : Mat) (index : List ℕ) (G : ℕ) : Bool :=
  x.all (fun row => row.length == F) &&
    index.length == x.length &&
    index.all (fun i => i < G)

/-- Read intermediate slot `i`; a `None` entry used as a tensor is a
`TypeError` in the source. -/
def getSlot (outs : List (Option Mat)) (i : ℕ) : Except AggrError Mat :=
  match outs.getD i none with
  | none => .error .typeError
  | some m => .ok m

/-- The Mean derivation stage (lines 202-212): if Mean was requested, divide
the looked-up sum slot (its own slot, or Sum's slot per `lookup_ops`) by the
clamped count and store it at Mean's index. -/
def meanStep (kinds : List AggrKind) (index : List ℕ)
    (outs : List (Option Mat)) : Except AggrError (List (Option Mat)) :=
  match aggr_index kinds .MeanAggregation with
  | none => .ok outs
  | some i =>
    match (lookup_ops kinds).getD i none with
    | none =>
      match getSlot outs i with
      | .error e => .error e
      | .ok sum_ => .ok (outs.set i (some (rowsDiv index sum_)))
    | some (tmp_aggr, j) =>
      if tmp_aggr = .SumAggregation then
        match getSlot outs j with
        | .error e => .error e
        | .ok sum_ => .ok (outs.set i (some (rowsDiv index sum_)))
      else .error .assertFail

/-- The Variance derivation stage (lines 214-231): obtain a mean (fresh
sum-of-elements pass divided by count, Sum's slot divided by count, or Mean's
slot), then store `pow_sum / count - mean * mean` at Variance's index. -/
def varStep (kinds : List AggrKind) (F : ℕ) (x : Mat) (index : List ℕ)
    (G : ℕ) (outs : List (Option Mat)) :
    Except AggrError (List (Option Mat)) :=
  match aggr_index kinds .VarAggregation with
  | none => .ok outs
  | some i =>
    let meanE : Except AggrError Mat :=
      match (lookup_ops kinds).getD i none with
      | none => .ok (rowsDiv index (baseSlot F G x index .sum))
      | some (tmp_aggr, j) =>
        if tmp_aggr = .SumAggregation then
          (getSlot outs j).map (rowsDiv index)
        else if tmp_aggr = .MeanAggregation then getSlot outs j
        else .error .unsupportedPlan
    match meanE with
    | .error e => .error e
    | .ok mean =>
      match getSlot outs i with
      | .error e => .error e
      | .ok pow_sum =>
        .ok (outs.set i (some (tSub (rowsDiv index pow_sum) (tMul mean mean))))

/-- The StdDev derivation stage (lines 233-258) up to, but not including,
the square root: obtain a variance (Variance's slot, or reconstructed from
`pow_sum / count - mean * mean` with the mean from Sum's slot, Mean's slot,
or a fresh sum pass), and store the radicand `var.relu() + 1e-5` at StdDev's
index.  The square root itself is irrational in general and is applied by
the real-valued layer `forward` below, to exactly this slot. -/
def stdStep (kinds : List AggrKind) (F : ℕ) (x : Mat) (index : List ℕ)
    (G : ℕ) (outs : List (Option Mat)) :
    Except AggrError (List (Option Mat)) :=
  match aggr_index kinds .StdAggregation with
  | none => .ok outs
  | some i =>
    let varE : Except AggrError Mat :=
      match (lookup_ops kinds).getD i none with
      | none =>
        match getSlot outs i with
        | .error e => .error e
        | .ok pow_sum =>
          let mean := rowsDiv index (baseSlot F G x index .sum)
          .ok (tSub (rowsDiv index pow_sum) (tMul mean mean))
      | some (tmp_aggr, j) =>
        if tmp_aggr = .VarAggregation then getSlot outs j
        else if tmp_aggr = .SumAggregation then
          match getSlot outs i with
          | .error e => .error e
          | .ok pow_sum =>
            match (getSlot outs j).map (rowsDiv index) with
            | .error e => .error e
            | .ok mean => .ok (tSub (rowsDiv index pow_sum) (tMul mean mean))
        else if tmp_aggr = .MeanAggregation then
          match getSlot outs i with
          | .error e => .error e
          | .ok pow_sum =>
            match getSlot outs j with
            | .error e => .error e
            | .ok mean => .ok (tSub (rowsDiv index pow_sum) (tMul mean mean))
        else .error .unsupportedPlan
    match varE with
    | .error e => .error e
    | .ok var => .ok (outs.set i (some (tAddEps (tRelu var))))

/-- Collection step: `torch.cat(outs, dim=-1)` fails if an entry is still `None`; otherwise
it yields the list of per-kind slots (concatenated by `forward` below). -/
def collectSlots (outs : List (Option Mat)) : Except AggrError (List Mat) :=
  match outs with
  | [] => .ok []
  | none :: _ => .error .typeError
  | some m :: rest =>
    match collectSlots rest with
    | .error e => .error e
    | .ok ms => .ok (m :: ms)

/-- The computable core of `FusedAggregation.forward`: validation, the base
scatter passes (in request order, `None` for reusing kinds), the three
derivation stages in their fixed order, and the collection of the per-kind
`G x F` slots.  The slot at StdDev's index holds the radicand
`var.relu() + 1e-5`; everything else holds its final value. -/
def fusedSlots (kinds : List AggrKind) (F : ℕ) (x : Mat) (index : List ℕ)
    (G : ℕ) : Except AggrError (List Mat) :=
  if kinds.isEmpty then .error .configError
  else if validInput F x index G = false then .error .shapeError
  else
    let outs0 : List (Option Mat) :=
      (reduce_ops kinds).map (Option.map (baseSlot F G x index))
    match meanStep kinds index outs0 with
    | .error e => .error e
    | .ok outs1 =>
      match varStep kinds F x index G outs1 with
      | .error e => .error e
      | .ok outs2 =>
        match stdStep kinds F x index G outs2 with
        | .error e => .error e
        | .ok outs3 => collectSlots outs3

/-- Method `FusedAggregation.forward`: the real-valued result.  The square root
deferred by `stdStep` is applied to the slot at StdDev's index, and the
slots are concatenated along the feature axis in request order
(`torch.cat(outs, dim=-1)`), giving `G` rows of `F * K` reals. -/
noncomputable def forward (kinds : List AggrKind) (F : ℕ) (x : Mat)
    (index : List ℕ) (G : ℕ) : Except AggrError (List (List ℝ)) :=
  (fusedSlots kinds F x index G).map (fun slots =>
    let rslots : List (List (List ℝ)) :=
      (List.range slots.length).map (fun i =>
        if aggr_index kinds .StdAggregation = some i then
          (slots.getD i []).map (fun row =>
            row.map (fun (q : ℚ) => Real.sqrt (q : ℝ)))
        else
          (slots.getD i []).map (fun row =>
            row.map (fun (q : ℚ) => (q : ℝ))))
    (List.range G).map (fun g => (rslots.map (fun m => m.getD g [])).flatten))

/-- Columns `[i * F, (i + 1) * F)` of an output row: the block of the kind
requested at position `i`. -/
def blockRow (F i : ℕ) (row : List ℝ) : List ℝ := (row.drop (i * F)).take F

/-- Cell `(g, f)` of a standalone Sum aggregation. -/
def sumEntry (x : Mat) (index : List ℕ) (g f : ℕ) : ℚ :=
  applyReduce .sum (groupVals x index g f)

/-- Cell `(g, f)` of a sum-of-squares base pass. -/
def powSumEntry (x : Mat) (index : List ℕ) (g f : ℕ) : ℚ :=
  applyReduce .pow_sum (groupVals x index g f)

/-- Cell `(g, f)` of a standalone Mean aggregation: group sum over clamped
count. -/
def meanEntry (x : Mat) (index : List ℕ) (g f : ℕ) : ℚ :=
  sumEntry x index g f / clampAt index g

/-- Cell `(g, f)` of a standalone Variance aggregation:
`pow_sum / count - mean ^ 2`. -/
def varEntry (x : Mat) (index : List ℕ) (g f : ℕ) : ℚ :=
  powSumEntry x index g f / clampAt index g -
    meanEntry x index g f * meanEntry x index g f

/-- Cell `(g, f)` of the StdDev radicand: `max(var, 0) + 1e-5`. -/
def stdRadicandEntry (x : Mat) (index : List ℕ) (g f : ℕ) : ℚ :=
  max (varEntry x index g f) 0 + 1 / 100000

/-- Modelled from the spec: the rational part of computing one kind alone,
unfused (spec sections 4.2, 4.3 and 8).  The unfused aggregation classes
(`SumAggregation`, ..., `StdAggregation`) are not part of the excerpted
source; per the spec each standalone kind performs the base pass of the
table in section 4.2 (with empty-group rows corrected to zero for the
non-additive identities) and the derivations of section 4.3.  For StdDev
this gives the radicand; its square root is `singleAggr` below. -/
def singleAggrQ (k : AggrKind) (x : Mat) (index : List ℕ) (g f : ℕ) : ℚ :=
  match k with
  | .SumAggregation => sumEntry x index g f
  | .MinAggregation => applyReduce .amin (groupVals x index g f)
  | .MaxAggregation => applyReduce .amax (groupVals x index g f)
  | .MulAggregation => applyReduce .prod (groupVals x index g f)
  | .MeanAggregation => meanEntry x index g f
  | .VarAggregation => varEntry x index g f
  | .StdAggregation => stdRadicandEntry x index g f

/-- Modelled from the spec: cell `(g, f)` of computing kind `k` alone,
unfused, as a real number (`sqrt(max(var, 0) + 1e-5)` for StdDev, the exact
rational value for every other kind). -/
noncomputable def singleAggr (k : AggrKind) (x : Mat) (index : List ℕ)
    (g f : ℕ) : ℝ :=
  if k = .StdAggregation then Real.sqrt (stdRadicandEntry x index g f)
  else ((singleAggrQ k x index g f : ℚ) : ℝ)

/-! ### Generic list helpers -/

theorem nodup_getElem?_eq {α : Type} {l : List α} (hnd : l.Nodup) {i j : ℕ}
    {a : α} (hi : l[i]? = some a) (hj : l[j]? = some a) : i = j := by
  rcases List.getElem?_eq_some.mp hi with ⟨hi1, hi2⟩
  rcases List.getElem?_eq_some.mp hj with ⟨hj1, hj2⟩
  exact (hnd.getElem_inj_iff).mp (hi2.trans hj2.symm)

theorem getD_map_of_getElem? {α β : Type} {l : List α} {i : ℕ} {a : α}
    (f : α → β) (d : β) (h : l[i]? = some a) : (l.map f).getD i d = f a := by
  rw [List.getD_eq_getElem?_getD, List.getElem?_map, h]
  rfl

theorem zipWith_map_map_same {α β γ δ : Type} (F' : β → γ → δ) (f : α → β)
    (g : α → γ) (l : List α) :
    List.zipWith F' (l.map f) (l.map g) = l.map (fun a => F' (f a) (g a)) := by
  induction l with
  | nil => rfl
  | cons a l ih => simp [ih]

/-! ### Facts about `aggr_index` -/

theorem aggr_index_getElem? {kinds : List AggrKind} {cls : AggrKind} {i : ℕ}
    (h : aggr_index kinds cls = some i) : kinds[i]? = some cls := by
  induction kinds generalizing i with
  | nil => simp [aggr_index] at h
  | cons k rest ih =>
    rw [aggr_index] at h
    cases hrec : aggr_index rest cls with
    | some j =>
      rw [hrec] at h
      cases h
      simpa using ih hrec
    | none =>
      rw [hrec] at h
      by_cases hk : k = cls
      · simp [hk] at h
        cases h
        simp [hk]
      · simp [hk] at h

theorem aggr_index_eq_none_iff {kinds : List AggrKind} {cls : AggrKind} :
    aggr_index kinds cls = none ↔ cls ∉ kinds := by
  induction kinds with
  | nil => simp [aggr_index]
  | cons k rest ih =>
    rw [aggr_index]
    cases hrec : aggr_index rest cls with
    | some j =>
      have hmem : cls ∈ rest := by
        by_contra hn
        rw [ih.mpr hn] at hrec
        exact Option.noConfusion hrec
      simp [List.mem_cons, hmem]
    | none =>
      have hnr : cls ∉ rest := ih.mp hrec
      by_cases hk : k = cls
      · simp [hk]
      · have hck : ¬cls = k := fun h => hk h.symm
        simp [hk, List.mem_cons, hck, hnr]

theorem aggr_index_isSome_of_mem {kinds : List AggrKind} {cls : AggrKind}
    (h : cls ∈ kinds) : (aggr_index kinds cls).isSome = true := by
  cases hc : aggr_index kinds cls with
  | none => exact absurd h (aggr_index_eq_none_iff.mp hc)
  | some j => rfl

theorem aggr_index_of_getElem? {kinds : List AggrKind} {cls : AggrKind}
    {p : ℕ} (hnd : kinds.Nodup) (h : kinds[p]? = some cls) :
    aggr_index kinds cls = some p := by
  induction kinds generalizing p with
  | nil => simp at h
  | cons k rest ih =>
    rcases List.nodup_cons.mp hnd with ⟨hk, hrest⟩
    rw [aggr_index]
    cases p with
    | zero =>
      have hk0 : k = cls := by simpa using h
      subst hk0
      have hnone : aggr_index rest k = none := aggr_index_eq_none_iff.mpr hk
      simp [hnone]
    | succ q =>
      simp only [List.getElem?_cons_succ] at h
      simp [ih hrest h]

theorem mem_of_aggr_index {kinds : List AggrKind} {cls : AggrKind} {i : ℕ}
    (h : aggr_index kinds cls = some i) : cls ∈ kinds :=
  List.getElem?_mem (aggr_index_getElem? h)

/-! ### Facts about the matrix operations -/

theorem length_ofFun {G F : ℕ} {e : ℕ → ℕ → ℚ} : (ofFun G F e).length = G := by
  simp [ofFun]

theorem getElem?_ofFun {G F g : ℕ} {e : ℕ → ℕ → ℚ} (hg : g < G) :
    (ofFun G F e)[g]? = some ((List.range F).map (e g)) := by
  rw [ofFun, List.getElem?_map, List.getElem?_range hg]
  rfl

theorem getD_ofFun {G F g : ℕ} {e : ℕ → ℕ → ℚ} (hg : g < G) :
    (ofFun G F e).getD g [] = (List.range F).map (e g) := by
  rw [List.getD_eq_getElem?_getD, getElem?_ofFun hg]
  rfl

theorem rowsDiv_ofFun {G F : ℕ} {index : List ℕ} {e : ℕ → ℕ → ℚ} :
    rowsDiv index (ofFun G F e) =
      ofFun G F (fun g f => e g f / clampAt index g) := by
  rw [rowsDiv, length_ofFun]
  conv_rhs => rw [ofFun]
  apply List.map_congr_left
  intro g hg
  rw [getD_ofFun (List.mem_range.mp hg), List.map_map]
  rfl

theorem tSub_ofFun {G F : ℕ} {e₁ e₂ : ℕ → ℕ → ℚ} :
    tSub (ofFun G F e₁) (ofFun G F e₂) =
      ofFun G F (fun g f => e₁ g f - e₂ g f) := by
  unfold tSub ofFun
  rw [zipWith_map_map_same]
  apply List.map_congr_left
  intro g _
  rw [zipWith_map_map_same]

theorem tMul_ofFun {G F : ℕ} {e₁ e₂ : ℕ → ℕ → ℚ} :
    tMul (ofFun G F e₁) (ofFun G F e₂) =
      ofFun G F (fun g f => e₁ g f * e₂ g f) := by
  unfold tMul ofFun
  rw [zipWith_map_map_same]
  apply List.map_congr_left
  intro g _
  rw [zipWith_map_map_same]

theorem tRelu_ofFun {G F : ℕ} {e : ℕ → ℕ → ℚ} :
    tRelu (ofFun G F e) = ofFun G F (fun g f => max (e g f) 0) := by
  simp [tRelu, ofFun, List.map_map]

theorem tAddEps_ofFun {G F : ℕ} {e : ℕ → ℕ → ℚ} :
    tAddEps (ofFun G F e) = ofFun G F (fun g f => e g f + 1 / 100000) := by
  simp [tAddEps, ofFun, List.map_map]

/-! ### The intermediate slot state, as a function of the kind

With a duplicate-free kind list the intermediate list `outs` of `forward` is,
at every point, the image of the kind list under a function of the kind
alone: `stage0` after the base scatter passes, `stage1` after the Mean stage,
`stage2` after the Variance stage, `stage3` after the StdDev stage. -/

def stage0 (kinds : List AggrKind) (F : ℕ) (x : Mat) (index : List ℕ)
    (G : ℕ) (k : AggrKind) : Option Mat :=
  (reduce_op1 kinds k).map (baseSlot F G x index)

def stage1 (kinds : List AggrKind) (F : ℕ) (x : Mat) (index : List ℕ)
    (G : ℕ) (k : AggrKind) : Option Mat :=
  if k = .MeanAggregation then some (ofFun G F (meanEntry x index))
  else stage0 kinds F x index G k

def stage2 (kinds : List AggrKind) (F : ℕ) (x : Mat) (index : List ℕ)
    (G : ℕ) (k : AggrKind) : Option Mat :=
  if k = .VarAggregation then some (ofFun G F (varEntry x index))
  else stage1 kinds F x index G k

def stage3 (kinds : List AggrKind) (F : ℕ) (x : Mat) (index : List ℕ)
    (G : ℕ) (k : AggrKind) : Option Mat :=
  if k = .StdAggregation then some (ofFun G F (stdRadicandEntry x index))
  else stage2 kinds F x index G k

theorem getSlot_map {kinds : List AggrKind} {f : AggrKind → Option Mat}
    {j : ℕ} {cls : AggrKind} {m : Mat} (hj : kinds[j]? = some cls)
    (hf : f cls = some m) : getSlot (kinds.map f) j = .ok m := by
  rw [getSlot, getD_map_of_getElem? _ _ hj, hf]

theorem set_map_eq_map {kinds : List AggrKind} {f g : AggrKind → Option Mat}
    {i : ℕ} {cls : AggrKind} {v : Option Mat} (hnd : kinds.Nodup)
    (hi : kinds[i]? = some cls) (hv : g cls = v)
    (hother : ∀ k ∈ kinds, k ≠ cls → f k = g k) :
    (kinds.map f).set i v = kinds.map g := by
  have hilt : i < kinds.length :=
    (List.getElem?_eq_some.mp hi).elim (fun h _ => h)
  apply List.ext_getElem?
  intro p
  by_cases hp : p = i
  · subst hp
    rw [List.getElem?_set_eq_of_lt _ (by simpa using hilt),
      List.getElem?_map, hi]
    simp [hv]
  · rw [List.getElem?_set_ne (fun h => hp h.symm), List.getElem?_map,
      List.getElem?_map]
    cases hk : kinds[p]? with
    | none => rfl
    | some k =>
      have hkne : k ≠ cls := fun he =>
        hp (nodup_getElem?_eq hnd (he ▸ hk) hi)
      simp [hother k (List.getElem?_mem hk) hkne]

theorem map_stage_congr {kinds : List AggrKind}
    {f g : AggrKind → Option Mat}
    (h : ∀ k ∈ kinds, f k = g k) : kinds.map f = kinds.map g :=
  List.map_congr_left h

/-- After the base scatter loop, `outs` is the image of `stage0`. -/
theorem outs0_eq_map_stage0 (kinds : List AggrKind) (F : ℕ) (x : Mat)
    (index : List ℕ) (G : ℕ) :
    (reduce_ops kinds).map (Option.map (baseSlot F G x index)) =
      kinds.map (stage0 kinds F x index G) := by
  rw [reduce_ops, List.map_map]
  rfl

/-- Dividing the sum base slot by the clamped count gives the mean matrix. -/
theorem rowsDiv_baseSlot_sum {F G : ℕ} {x : Mat} {index : List ℕ} :
    rowsDiv index (baseSlot F G x index .sum) =
      ofFun G F (meanEntry x index) := by
  rw [baseSlot, rowsDiv_ofFun]
  rfl

/-- The variance formula applied to its canonical ingredients. -/
theorem tSub_pow_mean {F G : ℕ} {x : Mat} {index : List ℕ} :
    tSub (rowsDiv index (baseSlot F G x index .pow_sum))
        (tMul (ofFun G F (meanEntry x index)) (ofFun G F (meanEntry x index))) =
      ofFun G F (varEntry x index) := by
  rw [baseSlot, rowsDiv_ofFun, tMul_ofFun, tSub_ofFun]
  rfl

/-- The StdDev radicand formula applied to the variance matrix. -/
theorem tAddEps_tRelu_var {F G : ℕ} {x : Mat} {index : List ℕ} :
    tAddEps (tRelu (ofFun G F (varEntry x index))) =
      ofFun G F (stdRadicandEntry x index) := by
  rw [tRelu_ofFun, tAddEps_ofFun]
  rfl

/-- The Mean stage turns the `stage0` state into the `stage1` state. -/
theorem meanStep_eq (kinds : List AggrKind) (F : ℕ) (x : Mat)
    (index : List ℕ) (G : ℕ) (hnd : kinds.Nodup) :
    meanStep kinds index (kinds.map (stage0 kinds F x index G)) =
      .ok (kinds.map (stage1 kinds F x index G)) := by
  unfold meanStep
  cases hmean : aggr_index kinds .MeanAggregation with
  | none =>
    have hnm : AggrKind.MeanAggregation ∉ kinds :=
      aggr_index_eq_none_iff.mp hmean
    have hmaps : kinds.map (stage0 kinds F x index G) =
        kinds.map (stage1 kinds F x index G) :=
      map_stage_congr (fun k hk => by
        have hne : k ≠ .MeanAggregation := by
          intro he
          subst he
          exact hnm hk
        rw [stage1, if_neg hne])
    simp only [hmaps]
  | some i =>
    have hi : kinds[i]? = some .MeanAggregation := aggr_index_getElem? hmean
    have hset : (kinds.map (stage0 kinds F x index G)).set i
        (some (rowsDiv index (baseSlot F G x index .sum))) =
        kinds.map (stage1 kinds F x index G) :=
      set_map_eq_map hnd hi
        (by rw [stage1, if_pos rfl, rowsDiv_baseSlot_sum])
        (fun k _ hne => by rw [stage1, if_neg hne])
    cases hsum : aggr_index kinds .SumAggregation with
    | some j =>
      have hj : kinds[j]? = some .SumAggregation := aggr_index_getElem? hsum
      have hlk : (lookup_ops kinds).getD i none =
          some (.SumAggregation, j) := by
        rw [lookup_ops, getD_map_of_getElem? _ _ hi]
        unfold lookup_op1
        rw [hsum]
        rfl
      have hgs : getSlot (kinds.map (stage0 kinds F x index G)) j =
          .ok (baseSlot F G x index .sum) :=
        getSlot_map hj (by rw [stage0]; rfl)
      simp only [hlk, hgs, hset, reduceIte]
    | none =>
      have hlk : (lookup_ops kinds).getD i none = none := by
        rw [lookup_ops, getD_map_of_getElem? _ _ hi]
        unfold lookup_op1
        rw [hsum]
        rfl
      have hgs : getSlot (kinds.map (stage0 kinds F x index G)) i =
          .ok (baseSlot F G x index .sum) :=
        getSlot_map hi (by
          rw [stage0]
          unfold reduce_op1
          rw [hsum]
          rfl)
      simp only [hlk, hgs, hset]

/-- The Variance stage turns the `stage1` state into the `stage2` state. -/
theorem varStep_eq (kinds : List AggrKind) (F : ℕ) (x : Mat)
    (index : List ℕ) (G : ℕ) (hnd : kinds.Nodup) :
    varStep kinds F x index G (kinds.map (stage1 kinds F x index G)) =
      .ok (kinds.map (stage2 kinds F x index G)) := by
  unfold varStep
  cases hvar : aggr_index kinds .VarAggregation with
  | none =>
    have hnm : AggrKind.VarAggregation ∉ kinds :=
      aggr_index_eq_none_iff.mp hvar
    have hmaps : kinds.map (stage1 kinds F x index G) =
        kinds.map (stage2 kinds F x index G) :=
      map_stage_congr (fun k hk => by
        have hne : k ≠ .VarAggregation := by
          intro he
          subst he
          exact hnm hk
        rw [stage2, if_neg hne])
    simp only [hmaps]
  | some i =>
    dsimp only
    have hi : kinds[i]? = some .VarAggregation := aggr_index_getElem? hvar
    have hpw : getSlot (kinds.map (stage1 kinds F x index G)) i =
        .ok (baseSlot F G x index .pow_sum) :=
      getSlot_map hi (by rw [stage1, if_neg (by decide)]; rfl)
    have hset : (kinds.map (stage1 kinds F x index G)).set i
        (some (tSub (rowsDiv index (baseSlot F G x index .pow_sum))
          (tMul (ofFun G F (meanEntry x index))
            (ofFun G F (meanEntry x index))))) =
        kinds.map (stage2 kinds F x index G) :=
      set_map_eq_map hnd hi
        (by rw [stage2, if_pos rfl, tSub_pow_mean])
        (fun k _ hne => by rw [stage2, if_neg hne])
    cases hmean : aggr_index kinds .MeanAggregation with
    | some j =>
      have hj : kinds[j]? = some .MeanAggregation := aggr_index_getElem? hmean
      have hlk : (lookup_ops kinds).getD i none =
          some (.MeanAggregation, j) := by
        rw [lookup_ops, getD_map_of_getElem? _ _ hi]
        unfold lookup_op1
        rw [hmean]
      have hgm : getSlot (kinds.map (stage1 kinds F x index G)) j =
          .ok (ofFun G F (meanEntry x index)) :=
        getSlot_map hj (by rw [stage1, if_pos rfl])
      rw [hlk]
      simp [hgm, hpw, hset]
    | none =>
      cases hsum : aggr_index kinds .SumAggregation with
      | some j =>
        have hj : kinds[j]? = some .SumAggregation := aggr_index_getElem? hsum
        have hlk : (lookup_ops kinds).getD i none =
            some (.SumAggregation, j) := by
          rw [lookup_ops, getD_map_of_getElem? _ _ hi]
          unfold lookup_op1
          rw [hmean, hsum]
          rfl
        have hgs : getSlot (kinds.map (stage1 kinds F x index G)) j =
            .ok (baseSlot F G x index .sum) :=
          getSlot_map hj (by rw [stage1, if_neg (by decide)]; rfl)
        rw [hlk]
        simp [hgs, hpw, hset, Except.map, rowsDiv_baseSlot_sum]
      | none =>
        have hlk : (lookup_ops kinds).getD i none = none := by
          rw [lookup_ops, getD_map_of_getElem? _ _ hi]
          unfold lookup_op1
          rw [hmean, hsum]
          rfl
        simp only [hlk, hpw, hset, rowsDiv_baseSlot_sum]

/-- The StdDev stage turns the `stage2` state into the `stage3` state. -/
theorem stdStep_eq (kinds : List AggrKind) (F : ℕ) (x : Mat)
    (index : List ℕ) (G : ℕ) (hnd : kinds.Nodup) :
    stdStep kinds F x index G (kinds.map (stage2 kinds F x index G)) =
      .ok (kinds.map (stage3 kinds F x index G)) := by
  unfold stdStep
  cases hstd : aggr_index kinds .StdAggregation with
  | none =>
    have hnm : AggrKind.StdAggregation ∉ kinds :=
      aggr_index_eq_none_iff.mp hstd
    have hmaps : kinds.map (stage2 kinds F x index G) =
        kinds.map (stage3 kinds F x index G) :=
      map_stage_congr (fun k hk => by
        have hne : k ≠ .StdAggregation := by
          intro he
          subst he
          exact hnm hk
        rw [stage3, if_neg hne])
    simp only [hmaps]
  | some i =>
    dsimp only
    have hi : kinds[i]? = some .StdAggregation := aggr_index_getElem? hstd
    have hset : (kinds.map (stage2 kinds F x index G)).set i
        (some (tAddEps (tRelu (ofFun G F (varEntry x index))))) =
        kinds.map (stage3 kinds F x index G) :=
      set_map_eq_map hnd hi
        (by rw [stage3, if_pos rfl, tAddEps_tRelu_var])
        (fun k _ hne => by rw [stage3, if_neg hne])
    cases hvar : aggr_index kinds .VarAggregation with
    | some j =>
      have hj : kinds[j]? = some .VarAggregation := aggr_index_getElem? hvar
      have hlk : (lookup_ops kinds).getD i none =
          some (.VarAggregation, j) := by
        rw [lookup_ops, getD_map_of_getElem? _ _ hi]
        unfold lookup_op1
        rw [hvar]
      have hgv : getSlot (kinds.map (stage2 kinds F x index G)) j =
          .ok (ofFun G F (varEntry x index)) :=
        getSlot_map hj (by rw [stage2, if_pos rfl])
      simp only [hlk, hgv, hset, reduceIte]
    | none =>
      have hpw : getSlot (kinds.map (stage2 kinds F x index G)) i =
          .ok (baseSlot F G x index .pow_sum) :=
        getSlot_map hi (by
          rw [stage2, if_neg (by decide), stage1, if_neg (by decide),
            stage0]
          unfold reduce_op1
          rw [hvar]
          rfl)
      cases hmean : aggr_index kinds .MeanAggregation with
      | some j =>
        have hj : kinds[j]? = some .MeanAggregation :=
          aggr_index_getElem? hmean
        have hlk : (lookup_ops kinds).getD i none =
            some (.MeanAggregation, j) := by
          rw [lookup_ops, getD_map_of_getElem? _ _ hi]
          unfold lookup_op1
          rw [hvar, hmean]
        have hgm : getSlot (kinds.map (stage2 kinds F x index G)) j =
            .ok (ofFun G F (meanEntry x index)) :=
          getSlot_map hj (by
            rw [stage2, if_neg (by decide), stage1, if_pos rfl])
        rw [hlk]
        simp [hgm, hpw, hset, tSub_pow_mean]
      | none =>
        cases hsum : aggr_index kinds .SumAggregation with
        | some j =>
          have hj : kinds[j]? = some .SumAggregation :=
            aggr_index_getElem? hsum
          have hlk : (lookup_ops kinds).getD i none =
              some (.SumAggregation, j) := by
            rw [lookup_ops, getD_map_of_getElem? _ _ hi]
            unfold lookup_op1
            rw [hvar, hmean, hsum]
            rfl
          have hgs : getSlot (kinds.map (stage2 kinds F x index G)) j =
              .ok (baseSlot F G x index .sum) :=
            getSlot_map hj (by
              rw [stage2, if_neg (by decide), stage1, if_neg (by decide)]
              rfl)
          rw [hlk]
          simp [hgs, hpw, hset, Except.map, rowsDiv_baseSlot_sum,
            tSub_pow_mean]
        | none =>
          have hlk : (lookup_ops kinds).getD i none = none := by
            rw [lookup_ops, getD_map_of_getElem? _ _ hi]
            unfold lookup_op1
            rw [hvar, hmean, hsum]
            rfl
          simp only [hlk, hpw, hset, rowsDiv_baseSlot_sum, tSub_pow_mean]

/-- After all three derivation stages, every kind's slot holds exactly the
spec value of that kind (the StdDev slot holding the radicand). -/
theorem stage3_eq_singleAggrQ (kinds : List AggrKind) (F : ℕ) (x : Mat)
    (index : List ℕ) (G : ℕ) (k : AggrKind) :
    stage3 kinds F x index G k =
      some (ofFun G F (singleAggrQ k x index)) := by
  cases k <;> rfl

theorem collectSlots_map_of_some {l : List AggrKind}
    {f : AggrKind → Option Mat} {h : AggrKind → Mat}
    (hf : ∀ k ∈ l, f k = some (h k)) :
    collectSlots (l.map f) = .ok (l.map h) := by
  induction l with
  | nil => rfl
  | cons k rest ih =>
    have h1 : f k = some (h k) := hf k (List.mem_cons_self k rest)
    have h2 := ih (fun a ha => hf a (List.mem_cons_of_mem k ha))
    rw [List.map_cons, h1]
    unfold collectSlots
    rw [h2]
    rfl

/-- Main characterization of the computable pipeline: on a duplicate-free,
nonempty kind list and a valid input, `fusedSlots` succeeds and each
per-kind slot is the standalone spec matrix of that kind (radicand form for
StdDev). -/
theorem fusedSlots_eq (kinds : List AggrKind) (F : ℕ) (x : Mat)
    (index : List ℕ) (G : ℕ) (hnd : kinds.Nodup) (hne : kinds ≠ [])
    (hv : validInput F x index G = true) :
    fusedSlots kinds F x index G =
      .ok (kinds.map (fun k => ofFun G F (singleAggrQ k x index))) := by
  have hemp : kinds.isEmpty = false := by simpa [List.isEmpty_iff] using hne
  unfold fusedSlots
  rw [if_neg (by simp [hemp]), if_neg (by simp [hv])]
  dsimp only
  rw [outs0_eq_map_stage0, meanStep_eq kinds F x index G hnd]
  dsimp only
  rw [varStep_eq kinds F x index G hnd]
  dsimp only
  rw [stdStep_eq kinds F x index G hnd]
  dsimp only
  rw [collectSlots_map_of_some
    (fun k _ => stage3_eq_singleAggrQ kinds F x index G k)]

/-- The expected `forward` output: row `g` is the concatenation, in request
order, of each requested kind's standalone spec row. -/
noncomputable def specOut (kinds : List AggrKind) (F : ℕ) (x : Mat)
    (index : List ℕ) (G : ℕ) : List (List ℝ) :=
  (List.range G).map (fun g =>
    (kinds.map (fun k =>
      (List.range F).map (fun f => singleAggr k x index g f))).flatten)

theorem getD_range_map {β : Type} {G g : ℕ} (f : ℕ → β) (d : β)
    (hg : g < G) : ((List.range G).map f).getD g d = f g := by
  rw [List.getD_eq_getElem?_getD, List.getElem?_map, List.getElem?_range hg]
  rfl

theorem getD_map_rows_ofFun {G F g : ℕ} {e : ℕ → ℕ → ℚ} {t : ℚ → ℝ}
    (hg : g < G) :
    ((ofFun G F e).map (fun row => row.map t)).getD g [] =
      (List.range F).map (fun f => t (e g f)) := by
  rw [ofFun, List.map_map]
  rw [getD_range_map _ _ hg]
  simp [List.map_map]

/-- Theorem: `forward` computes exactly the per-kind standalone spec rows,
concatenated in request order. -/
theorem forward_eq (kinds : List AggrKind) (F : ℕ) (x : Mat)
    (index : List ℕ) (G : ℕ) (hnd : kinds.Nodup) (hne : kinds ≠ [])
    (hv : validInput F x index G = true) :
    forward kinds F x index G = .ok (specOut kinds F x index G) := by
  rw [forward, fusedSlots_eq kinds F x index G hnd hne hv]
  simp only [Except.map]
  congr 1
  rw [specOut]
  apply List.map_congr_left
  intro g hg
  have hgG : g < G := List.mem_range.mp hg
  congr 1
  rw [List.map_map, List.length_map]
  apply List.ext_getElem?
  intro p
  rw [List.getElem?_map, List.getElem?_map]
  by_cases hp : p < kinds.length
  · rw [List.getElem?_range hp, List.getElem?_eq_getElem hp]
    simp only [Option.map_some', Function.comp]
    congr 1
    set k := kinds[p] with hkdef
    have hk : kinds[p]? = some k := List.getElem?_eq_getElem hp
    have hslot : (kinds.map
        (fun k => ofFun G F (singleAggrQ k x index))).getD p [] =
        ofFun G F (singleAggrQ k x index) :=
      getD_map_of_getElem? _ _ hk
    by_cases hkstd : k = .StdAggregation
    · have hcond : aggr_index kinds .StdAggregation = some p :=
        aggr_index_of_getElem? hnd (hkstd ▸ hk)
      rw [if_pos hcond, hslot, getD_map_rows_ofFun hgG, hkstd]
      rfl
    · have hcond : aggr_index kinds .StdAggregation ≠ some p := by
        intro hc
        have h2 := aggr_index_getElem? hc
        rw [hk] at h2
        exact hkstd (Option.some.injEq _ _ ▸ h2)
      rw [if_neg hcond, hslot, getD_map_rows_ofFun hgG]
      apply List.map_congr_left
      intro f _
      rw [singleAggr, if_neg hkstd]
  · have hp2 : kinds.length ≤ p := Nat.le_of_not_lt hp
    rw [List.getElem?_eq_none (by simpa using hp2),
      List.getElem?_eq_none hp2]
    rfl

/-- Every row of `specOut` splits into `F`-wide blocks, block `i` being the
standalone spec row of the kind requested at position `i`. -/
theorem blockRow_flatten {F : ℕ} (ms : List (List ℝ)) (i : ℕ)
    (hlen : ∀ m ∈ ms, m.length = F) (hi : i < ms.length) :
    blockRow F i ms.flatten = ms.getD i [] := by
  induction ms generalizing i with
  | nil => simp at hi
  | cons m rest ih =>
    cases i with
    | zero =>
      rw [blockRow]
      simp only [Nat.zero_mul, List.drop_zero, List.flatten_cons]
      rw [List.take_left' (hlen m (List.mem_cons_self m rest))]
      rfl
    | succ n =>
      have hm : m.length = F := hlen m (List.mem_cons_self m rest)
      have hstep : (n + 1) * F = m.length + n * F := by rw [hm]; ring
      rw [blockRow, List.flatten_cons, hstep, List.drop_append]
      have ih2 := ih n (fun a ha => hlen a (List.mem_cons_of_mem m ha))
        (by simpa using hi)
      rw [blockRow] at ih2
      rw [ih2]
      simp

theorem specOut_block {kinds : List AggrKind} {F : ℕ} {x : Mat}
    {index : List ℕ} {G g i : ℕ} {k : AggrKind}
    (hik : kinds[i]? = some k) (hg : g < G) :
    blockRow F i ((specOut kinds F x index G).getD g []) =
      (List.range F).map (fun f => singleAggr k x index g f) := by
  have hilt : i < kinds.length :=
    (List.getElem?_eq_some.mp hik).elim (fun h _ => h)
  rw [specOut, getD_range_map _ _ hg]
  rw [blockRow_flatten _ i
    (by
      intro m hm
      rcases List.mem_map.mp hm with ⟨a, _, ha⟩
      rw [← ha]
      simp)
    (by simpa using hilt)]
  exact getD_map_of_getElem? _ _ hik

/-! ### Values at a group with zero assigned elements -/

theorem groupVals_of_count_zero {x : Mat} {index : List ℕ} {g f : ℕ}
    (h : countAt index g = 0) : groupVals x index g f = [] := by
  have hnm : g ∉ index := List.count_eq_zero.mp h
  rw [groupVals]
  have : (index.zip x).filter (fun p => decide (p.1 = g)) = [] := by
    rw [List.filter_eq_nil_iff]
    intro p hp
    have h1 : p.1 ∈ index := (List.of_mem_zip hp).1
    simp only [decide_eq_true_eq]
    intro he
    exact hnm (he ▸ h1)
  rw [this]
  rfl

theorem clampAt_of_count_zero {index : List ℕ} {g : ℕ}
    (h : countAt index g = 0) : clampAt index g = 1 := by
  rw [clampAt, h]
  norm_num

theorem singleAggrQ_of_count_zero {k : AggrKind} {x : Mat} {index : List ℕ}
    {g f : ℕ} (h : countAt index g = 0) (hk : k ≠ .StdAggregation) :
    singleAggrQ k x index g f = 0 := by
  have hgv : ∀ f, groupVals x index g f = [] :=
    fun f => groupVals_of_count_zero h
  have hclamp : clampAt index g = 1 := clampAt_of_count_zero h
  cases k with
  | SumAggregation => rw [singleAggrQ, sumEntry, hgv]; rfl
  | MinAggregation => rw [singleAggrQ, hgv]; rfl
  | MaxAggregation => rw [singleAggrQ, hgv]; rfl
  | MulAggregation => rw [singleAggrQ, hgv]; rfl
  | MeanAggregation =>
    rw [singleAggrQ, meanEntry, sumEntry, hgv, hclamp]
    norm_num
    rfl
  | VarAggregation =>
    rw [singleAggrQ, varEntry, powSumEntry, meanEntry, sumEntry, hgv, hclamp]
    simp [applyReduce]
  | StdAggregation => exact absurd rfl hk

theorem varEntry_of_count_zero {x : Mat} {index : List ℕ} {g f : ℕ}
    (h : countAt index g = 0) : varEntry x index g f = 0 := by
  have := singleAggrQ_of_count_zero (k := .VarAggregation) (x := x) (f := f)
    h (by decide)
  rw [singleAggrQ] at this
  exact this

theorem stdRadicandEntry_of_count_zero {x : Mat} {index : List ℕ} {g f : ℕ}
    (h : countAt index g = 0) :
    stdRadicandEntry x index g f = 1 / 100000 := by
  rw [stdRadicandEntry, varEntry_of_count_zero h]
  norm_num

/-! ### Unreachability of the `NotImplementedError` branches -/

theorem lookup_op1_var_cases (kinds : List AggrKind) :
    lookup_op1 kinds .VarAggregation = none ∨
    (∃ j, lookup_op1 kinds .VarAggregation = some (.MeanAggregation, j)) ∨
    (∃ j, lookup_op1 kinds .VarAggregation = some (.SumAggregation, j)) := by
  unfold lookup_op1
  cases aggr_index kinds .MeanAggregation with
  | some j => exact Or.inr (Or.inl ⟨j, rfl⟩)
  | none =>
    cases aggr_index kinds .SumAggregation with
    | some j => exact Or.inr (Or.inr ⟨j, rfl⟩)
    | none => exact Or.inl rfl

theorem lookup_op1_std_cases (kinds : List AggrKind) :
    lookup_op1 kinds .StdAggregation = none ∨
    (∃ j, lookup_op1 kinds .StdAggregation = some (.VarAggregation, j)) ∨
    (∃ j, lookup_op1 kinds .StdAggregation = some (.MeanAggregation, j)) ∨
    (∃ j, lookup_op1 kinds .StdAggregation = some (.SumAggregation, j)) := by
  unfold lookup_op1
  cases aggr_index kinds .VarAggregation with
  | some j => exact Or.inr (Or.inl ⟨j, rfl⟩)
  | none =>
    cases aggr_index kinds .MeanAggregation with
    | some j => exact Or.inr (Or.inr (Or.inl ⟨j, rfl⟩))
    | none =>
      cases aggr_index kinds .SumAggregation with
      | some j => exact Or.inr (Or.inr (Or.inr ⟨j, rfl⟩))
      | none => exact Or.inl rfl

theorem meanStep_ne_unsupported (kinds : List AggrKind) (index : List ℕ)
    (outs : List (Option Mat)) :
    meanStep kinds index outs ≠ .error .unsupportedPlan := by
  unfold meanStep
  cases aggr_index kinds .MeanAggregation with
  | none => simp
  | some i =>
    dsimp only
    cases hpr : (lookup_ops kinds).getD i none with
    | none =>
      unfold getSlot
      cases outs.getD i none <;> simp
    | some pr =>
      obtain ⟨tmp, j⟩ := pr
      dsimp only
      by_cases htmp : tmp = .SumAggregation
      · rw [if_pos htmp]
        unfold getSlot
        cases outs.getD j none <;> simp
      · rw [if_neg htmp]
        simp

theorem varStep_ne_unsupported (kinds : List AggrKind) (F : ℕ) (x : Mat)
    (index : List ℕ) (G : ℕ) (outs : List (Option Mat)) :
    varStep kinds F x index G outs ≠ .error .unsupportedPlan := by
  unfold varStep
  cases hvar : aggr_index kinds .VarAggregation with
  | none => simp
  | some i =>
    dsimp only
    have hi : kinds[i]? = some .VarAggregation := aggr_index_getElem? hvar
    have hlk : (lookup_ops kinds).getD i none =
        lookup_op1 kinds .VarAggregation := by
      rw [lookup_ops, getD_map_of_getElem? _ _ hi]
    rw [hlk]
    rcases lookup_op1_var_cases kinds with h | ⟨j, h⟩ | ⟨j, h⟩
    · rw [h]
      dsimp only
      unfold getSlot
      cases outs.getD i none <;> simp
    · rw [h]
      dsimp only
      unfold getSlot
      cases outs.getD j none <;> cases outs.getD i none <;> simp
    · rw [h]
      dsimp only
      unfold getSlot
      cases outs.getD j none <;> cases outs.getD i none <;>
        simp [Except.map]

theorem stdStep_ne_unsupported (kinds : List AggrKind) (F : ℕ) (x : Mat)
    (index : List ℕ) (G : ℕ) (outs : List (Option Mat)) :
    stdStep kinds F x index G outs ≠ .error .unsupportedPlan := by
  unfold stdStep
  cases hstd : aggr_index kinds .StdAggregation with
  | none => simp
  | some i =>
    dsimp only
    have hi : kinds[i]? = some .StdAggregation := aggr_index_getElem? hstd
    have hlk : (lookup_ops kinds).getD i none =
        lookup_op1 kinds .StdAggregation := by
      rw [lookup_ops, getD_map_of_getElem? _ _ hi]
    rw [hlk]
    rcases lookup_op1_std_cases kinds with h | ⟨j, h⟩ | ⟨j, h⟩ | ⟨j, h⟩
    · rw [h]
      dsimp only
      unfold getSlot
      cases outs.getD i none <;> simp
    · rw [h]
      dsimp only
      unfold getSlot
      cases outs.getD j none <;> simp
    · rw [h]
      dsimp only
      unfold getSlot
      cases outs.getD j none <;> cases outs.getD i none <;> simp
    · rw [h]
      dsimp only
      unfold getSlot
      cases outs.getD j none <;> cases outs.getD i none <;>
        simp [Except.map]

theorem collectSlots_ne_unsupported (outs : List (Option Mat)) :
    collectSlots outs ≠ .error .unsupportedPlan := by
  induction outs with
  | nil => simp [collectSlots]
  | cons o rest ih =>
    cases o with
    | none => simp [collectSlots]
    | some m =>
      unfold collectSlots
      cases h : collectSlots rest with
      | error e =>
        dsimp only
        intro hc
        exact ih (h.trans hc)
      | ok ms => simp

theorem fusedSlots_ne_unsupported (kinds : List AggrKind) (F : ℕ) (x : Mat)
    (index : List ℕ) (G : ℕ) :
    fusedSlots kinds F x index G ≠ .error .unsupportedPlan := by
  unfold fusedSlots
  by_cases hemp : kinds.isEmpty
  · rw [if_pos hemp]
    simp
  · rw [if_neg hemp]
    by_cases hval : validInput F x index G = false
    · rw [if_pos hval]
      simp
    · rw [if_neg hval]
      dsimp only
      cases h1 : meanStep kinds index
          ((reduce_ops kinds).map (Option.map (baseSlot F G x index))) with
      | error e =>
        dsimp only
        intro hc
        injection hc with he
        exact meanStep_ne_unsupported kinds index _ (by rw [h1, he])
      | ok outs1 =>
        dsimp only
        cases h2 : varStep kinds F x index G outs1 with
        | error e =>
          dsimp only
          intro hc
          injection hc with he
          exact varStep_ne_unsupported kinds F x index G outs1
            (by rw [h2, he])
        | ok outs2 =>
          dsimp only
          cases h3 : stdStep kinds F x index G outs2 with
          | error e =>
            dsimp only
            intro hc
            injection hc with he
            exact stdStep_ne_unsupported kinds F x index G outs2
              (by rw [h3, he])
          | ok outs3 => exact collectSlots_ne_unsupported outs3

/-! ### Claim theorems -/

/-- C2: for any valid input and any duplicate-free, nonempty selection of
the seven fusable kinds, the fused engine's output block for each requested
kind equals the result of computing that kind alone, unfused.  In the
exact-arithmetic model the equality is exact, which implies the claimed
floating tolerance. -/
theorem fused_block_matches_single (kinds : List AggrKind) (F : ℕ) (x : Mat)
    (index : List ℕ) (G : ℕ) (hnd : kinds.Nodup) (hne : kinds ≠ [])
    (hv : validInput F x index G = true) (i : ℕ) (k : AggrKind)
    (hik : kinds[i]? = some k) :
    ∃ out, forward kinds F x index G = .ok out ∧
      ∀ g < G, blockRow F i (out.getD g []) =
        (List.range F).map (fun f => singleAggr k x index g f) := by
  refine ⟨specOut kinds F x index G,
    forward_eq kinds F x index G hnd hne hv, ?_⟩
  intro g hg
  exact specOut_block hik hg

/-- C8: the final output is assembled by concatenating the per-kind `G x F`
slots along the feature axis in exactly the order the kinds were requested:
the `i`-th `F`-wide column block of every output row is the `i`-th slot of
`fusedSlots` (with the deferred square root applied to StdDev's slot),
regardless of which base reductions were shared internally. -/
theorem output_blocks_in_request_order (kinds : List AggrKind) (F : ℕ)
    (x : Mat) (index : List ℕ) (G : ℕ) (hnd : kinds.Nodup)
    (hne : kinds ≠ []) (hv : validInput F x index G = true) (i : ℕ)
    (k : AggrKind) (hik : kinds[i]? = some k) :
    ∃ slots out, fusedSlots kinds F x index G = .ok slots ∧
      forward kinds F x index G = .ok out ∧
      ∀ g < G, blockRow F i (out.getD g []) =
        if k = .StdAggregation then
          ((slots.getD i []).getD g []).map
            (fun (q : ℚ) => Real.sqrt (q : ℝ))
        else ((slots.getD i []).getD g []).map (fun (q : ℚ) => (q : ℝ)) := by
  refine ⟨_, _, fusedSlots_eq kinds F x index G hnd hne hv,
    forward_eq kinds F x index G hnd hne hv, ?_⟩
  intro g hg
  rw [specOut_block hik hg, getD_map_of_getElem? _ _ hik, getD_ofFun hg]
  by_cases hkstd : k = .StdAggregation
  · rw [if_pos hkstd, List.map_map]
    subst hkstd
    rfl
  · rw [if_neg hkstd, List.map_map]
    apply List.map_congr_left
    intro f _
    rw [singleAggr, if_neg hkstd]
    rfl

/-- C10: on a duplicate-free request list, each kind's `G x F` output block
is independent of its position: permuting the request list permutes the
column blocks and changes nothing else. -/
theorem forward_permutation_equivariant (kinds kinds2 : List AggrKind)
    (F : ℕ) (x : Mat) (index : List ℕ) (G : ℕ) (hnd : kinds.Nodup)
    (hperm : kinds.Perm kinds2) (hne : kinds ≠ [])
    (hv : validInput F x index G = true) (i i2 : ℕ) (k : AggrKind)
    (hik : kinds[i]? = some k) (hik2 : kinds2[i2]? = some k) :
    ∃ out out2, forward kinds F x index G = .ok out ∧
      forward kinds2 F x index G = .ok out2 ∧
      ∀ g < G, blockRow F i (out.getD g []) =
        blockRow F i2 (out2.getD g []) := by
  have hnd2 : kinds2.Nodup := hperm.nodup_iff.mp hnd
  have hne2 : kinds2 ≠ [] := by
    intro h
    subst h
    exact hne (List.Perm.eq_nil hperm)
  refine ⟨_, _, forward_eq kinds F x index G hnd hne hv,
    forward_eq kinds2 F x index G hnd2 hne2 hv, ?_⟩
  intro g hg
  rw [specOut_block hik hg, specOut_block hik2 hg]

/-- C1 (amended): on a valid input, the output block row of a group with
zero assigned elements is the zero vector for every requested kind EXCEPT
StdDev, whose empty-group row is constantly `sqrt(1e-5)` (the clamped-zero
variance plus the epsilon, square-rooted) and hence nonzero. -/
theorem empty_group_rows_zero_except_std (kinds : List AggrKind) (F : ℕ)
    (x : Mat) (index : List ℕ) (G : ℕ) (hnd : kinds.Nodup)
    (hne : kinds ≠ []) (hv : validInput F x index G = true) (i g : ℕ)
    (k : AggrKind) (hik : kinds[i]? = some k) (hg : g < G)
    (hempty : countAt index g = 0) :
    ∃ out, forward kinds F x index G = .ok out ∧
      blockRow F i (out.getD g []) =
        (if k = .StdAggregation then
          (List.range F).map
            (fun _ => Real.sqrt (((1 : ℚ) / 100000 : ℚ) : ℝ))
        else (List.range F).map (fun _ => (0 : ℝ))) := by
  refine ⟨_, forward_eq kinds F x index G hnd hne hv, ?_⟩
  rw [specOut_block hik hg]
  by_cases hkstd : k = .StdAggregation
  · rw [if_pos hkstd]
    subst hkstd
    apply List.map_congr_left
    intro f _
    rw [singleAggr, if_pos rfl, stdRadicandEntry_of_count_zero hempty]
  · rw [if_neg hkstd]
    apply List.map_congr_left
    intro f _
    rw [singleAggr, if_neg hkstd, singleAggrQ_of_count_zero hempty hkstd]
    norm_num

/-- C6: whenever StdDev is requested, every entry of its output block is
`sqrt(max(variance, 0) + 1e-5)` — the variance clamped below at zero before
the square root — and consequently every entry of the block is
nonnegative. -/
theorem std_block_sqrt_clamped_nonneg (kinds : List AggrKind) (F : ℕ)
    (x : Mat) (index : List ℕ) (G : ℕ) (hnd : kinds.Nodup)
    (hne : kinds ≠ []) (hv : validInput F x index G = true) (i : ℕ)
    (hik : kinds[i]? = some .StdAggregation) :
    ∃ out, forward kinds F x index G = .ok out ∧
      ∀ g < G,
        blockRow F i (out.getD g []) =
          (List.range F).map (fun f =>
            Real.sqrt
              ((max (varEntry x index g f) 0 + 1 / 100000 : ℚ) : ℝ)) ∧
        ∀ r ∈ blockRow F i (out.getD g []), 0 ≤ r := by
  refine ⟨_, forward_eq kinds F x index G hnd hne hv, ?_⟩
  intro g hg
  constructor
  · rw [specOut_block hik hg]
    rfl
  · rw [specOut_block hik hg]
    intro r hr
    rcases List.mem_map.mp hr with ⟨f, _, rfl⟩
    exact Real.sqrt_nonneg _

/-- C4: if Sum is requested anywhere in the list, Mean runs no base reduce
of its own and looks up Sum's slot; otherwise Mean runs its own sum-style
base reduce.  Either way, Mean's output block is the group sum divided by
the clamped per-group count. -/
theorem mean_derivation_from_sum (kinds : List AggrKind) (F : ℕ) (x : Mat)
    (index : List ℕ) (G : ℕ) (hnd : kinds.Nodup) (hne : kinds ≠ [])
    (hv : validInput F x index G = true)
    (hmem : .MeanAggregation ∈ kinds) :
    ∃ i, aggr_index kinds .MeanAggregation = some i ∧
      (.SumAggregation ∈ kinds →
        reduce_op1 kinds .MeanAggregation = none ∧
        ∃ j, aggr_index kinds .SumAggregation = some j ∧
          lookup_op1 kinds .MeanAggregation = some (.SumAggregation, j)) ∧
      (.SumAggregation ∉ kinds →
        reduce_op1 kinds .MeanAggregation = some .sum ∧
        lookup_op1 kinds .MeanAggregation = none) ∧
      ∃ out, forward kinds F x index G = .ok out ∧
        ∀ g < G, blockRow F i (out.getD g []) =
          (List.range F).map (fun f =>
            ((sumEntry x index g f / clampAt index g : ℚ) : ℝ)) := by
  cases hm : aggr_index kinds .MeanAggregation with
  | none => exact absurd hmem (aggr_index_eq_none_iff.mp hm)
  | some i =>
    refine ⟨i, rfl, ?_, ?_, ?_⟩
    · intro hsummem
      cases hs : aggr_index kinds .SumAggregation with
      | none => exact absurd hsummem (aggr_index_eq_none_iff.mp hs)
      | some j =>
        refine ⟨?_, j, rfl, ?_⟩
        · unfold reduce_op1
          rw [hs]
          rfl
        · unfold lookup_op1
          rw [hs]
          rfl
    · intro hsumnot
      have hs : aggr_index kinds .SumAggregation = none :=
        aggr_index_eq_none_iff.mpr hsumnot
      constructor
      · unfold reduce_op1
        rw [hs]
        rfl
      · unfold lookup_op1
        rw [hs]
        rfl
    · refine ⟨_, forward_eq kinds F x index G hnd hne hv, ?_⟩
      intro g hg
      rw [specOut_block (aggr_index_getElem? hm) hg]
      apply List.map_congr_left
      intro f _
      rw [singleAggr, if_neg (by decide)]
      rfl

/-- C5: the plan's reuse targets follow the stated priority order.
Variance looks up Mean's slot if Mean is requested, else Sum's slot if Sum
is requested, else has no lookup and runs its own sum-of-squares base
reduce.  StdDev looks up Variance's slot if Variance is requested (running
no base reduce of its own), else Mean's, else Sum's, else has no lookup and
runs its own sum-of-squares base reduce. -/
theorem var_std_reuse_priority (kinds : List AggrKind) :
    ((.MeanAggregation ∈ kinds →
        ∃ j, aggr_index kinds .MeanAggregation = some j ∧
          lookup_op1 kinds .VarAggregation = some (.MeanAggregation, j)) ∧
      (.MeanAggregation ∉ kinds → .SumAggregation ∈ kinds →
        ∃ j, aggr_index kinds .SumAggregation = some j ∧
          lookup_op1 kinds .VarAggregation = some (.SumAggregation, j)) ∧
      (.MeanAggregation ∉ kinds → .SumAggregation ∉ kinds →
        lookup_op1 kinds .VarAggregation = none ∧
        reduce_op1 kinds .VarAggregation = some .pow_sum)) ∧
    ((.VarAggregation ∈ kinds →
        reduce_op1 kinds .StdAggregation = none ∧
        ∃ j, aggr_index kinds .VarAggregation = some j ∧
          lookup_op1 kinds .StdAggregation = some (.VarAggregation, j)) ∧
      (.VarAggregation ∉ kinds → .MeanAggregation ∈ kinds →
        ∃ j, aggr_index kinds .MeanAggregation = some j ∧
          lookup_op1 kinds .StdAggregation = some (.MeanAggregation, j)) ∧
      (.VarAggregation ∉ kinds → .MeanAggregation ∉ kinds →
        .SumAggregation ∈ kinds →
        ∃ j, aggr_index kinds .SumAggregation = some j ∧
          lookup_op1 kinds .StdAggregation = some (.SumAggregation, j)) ∧
      (.VarAggregation ∉ kinds → .MeanAggregation ∉ kinds →
        .SumAggregation ∉ kinds →
        lookup_op1 kinds .StdAggregation = none ∧
        reduce_op1 kinds .StdAggregation = some .pow_sum)) := by
  have hsome : ∀ cls : AggrKind, cls ∈ kinds →
      ∃ j, aggr_index kinds cls = some j := by
    intro cls hc
    cases h : aggr_index kinds cls with
    | none => exact absurd hc (aggr_index_eq_none_iff.mp h)
    | some j => exact ⟨j, rfl⟩
  refine ⟨⟨?_, ?_, ?_⟩, ⟨?_, ?_, ?_, ?_⟩⟩
  · intro hm
    obtain ⟨j, hj⟩ := hsome _ hm
    refine ⟨j, hj, ?_⟩
    unfold lookup_op1
    rw [hj]
  · intro hm hs
    obtain ⟨j, hj⟩ := hsome _ hs
    refine ⟨j, hj, ?_⟩
    unfold lookup_op1
    rw [aggr_index_eq_none_iff.mpr hm, hj]
    rfl
  · intro hm hs
    constructor
    · unfold lookup_op1
      rw [aggr_index_eq_none_iff.mpr hm, aggr_index_eq_none_iff.mpr hs]
      rfl
    · rfl
  · intro hvv
    obtain ⟨j, hj⟩ := hsome _ hvv
    refine ⟨?_, j, hj, ?_⟩
    · unfold reduce_op1
      rw [hj]
      rfl
    · unfold lookup_op1
      rw [hj]
  · intro hvv hm
    obtain ⟨j, hj⟩ := hsome _ hm
    refine ⟨j, hj, ?_⟩
    unfold lookup_op1
    rw [aggr_index_eq_none_iff.mpr hvv, hj]
  · intro hvv hm hs
    obtain ⟨j, hj⟩ := hsome _ hs
    refine ⟨j, hj, ?_⟩
    unfold lookup_op1
    rw [aggr_index_eq_none_iff.mpr hvv, aggr_index_eq_none_iff.mpr hm, hj]
    rfl
  · intro hvv hm hs
    constructor
    · unfold lookup_op1
      rw [aggr_index_eq_none_iff.mpr hvv, aggr_index_eq_none_iff.mpr hm,
        aggr_index_eq_none_iff.mpr hs]
      rfl
    · unfold reduce_op1
      rw [aggr_index_eq_none_iff.mpr hvv]
      rfl

/-- C3: on a nonempty kind list, whenever the group-index length does not
match the feature array's element count, or a group-index value falls
outside `[0, G)`, or the feature array is not a proper 2-D `N x F` array,
the engine raises the shape error eagerly, before any reduction result is
produced. -/
theorem shape_error_on_invalid_input (kinds : List AggrKind) (F : ℕ)
    (x : Mat) (index : List ℕ) (G : ℕ) (hne : kinds ≠ [])
    (hinv : validInput F x index G = false) :
    forward kinds F x index G = .error .shapeError := by
  have hemp : kinds.isEmpty = false := by simpa [List.isEmpty_iff] using hne
  rw [forward]
  unfold fusedSlots
  rw [if_neg (by simp [hemp]), if_pos hinv]
  rfl

/-- C7: whenever a degree-based kind is requested, the per-group count used
as the division denominator is, after clamping, at least `1` for every
group, and exactly `1` for a group with zero assigned elements — so every
division by the count in the derivation stage is well-defined. -/
theorem clamped_count_at_least_one (kinds : List AggrKind) (index : List ℕ)
    (g : ℕ) (_hdeg : need_degree kinds = true) :
    1 ≤ clampAt index g ∧ (countAt index g = 0 → clampAt index g = 1) :=
  ⟨le_max_right _ _, fun h => clampAt_of_count_zero h⟩

/-- C9: the internal reuse-chain-inconsistency branches of the derivation
stage (the `NotImplementedError` cases of the Variance and StdDev stages)
are unreachable: for every kind list and every input, `forward` never
produces the `unsupportedPlan` error, because Variance's recorded lookup
target is always Sum or Mean and StdDev's is always Variance, Sum or
Mean. -/
theorem unsupported_plan_unreachable (kinds : List AggrKind) (F : ℕ)
    (x : Mat) (index : List ℕ) (G : ℕ) :
    forward kinds F x index G ≠ .error .unsupportedPlan := by
  rw [forward]
  cases h : fusedSlots kinds F x index G with
  | error e =>
    simp only [Except.map]
    intro hc
    injection hc with he
    exact fusedSlots_ne_unsupported kinds F x index G (by rw [h, he])
  | ok slots => simp [Except.map]

/-- C1 (counterexample): with only StdDev requested, on the valid input
`x = [[1]]`, `index = [0]`, `G = 2` (group `1` has zero assigned elements),
the engine succeeds and the output row of the empty group is
`[sqrt(1e-5)]`, which is NOT the zero vector — refuting the claim that the
empty-group row is exactly zero for every requested kind. -/
theorem std_empty_group_row_nonzero :
    forward [.StdAggregation] 1 [[1]] [0] 2 =
      .ok [[Real.sqrt ((1 : ℝ) / 100000)],
        [Real.sqrt ((1 : ℝ) / 100000)]] ∧
    [Real.sqrt ((1 : ℝ) / 100000)] ≠ ([(0 : ℝ)] : List ℝ) := by
  constructor
  · rw [forward_eq [.StdAggregation] 1 [[1]] [0] 2 (by decide) (by decide)
      (by decide)]
    have h0 : stdRadicandEntry [[1]] [0] 0 0 = 1 / 100000 := by
      norm_num [stdRadicandEntry, varEntry, meanEntry, powSumEntry,
        sumEntry, clampAt, countAt, groupVals, applyReduce]
    have h1 : stdRadicandEntry [[1]] [0] 1 0 = 1 / 100000 :=
      stdRadicandEntry_of_count_zero (by decide)
    simp [specOut, singleAggr, List.range_succ, h0, h1]
  · intro hcon
    have h1 : Real.sqrt ((1 : ℝ) / 100000) = 0 := by injection hcon
    have h2 : (0 : ℝ) < Real.sqrt ((1 : ℝ) / 100000) :=
      Real.sqrt_pos.mpr (by norm_num)
    rw [h1] at h2
    exact lt_irrefl 0 h2

/-! ### Witnesses -/

theorem fused_block_matches_single_witness :
    ∃ out, forward [.SumAggregation, .MeanAggregation] 2 [[1, 2], [3, 4]]
        [0, 0] 2 = .ok out ∧
      ∀ g < 2, blockRow 2 1 (out.getD g []) =
        (List.range 2).map (fun f =>
          singleAggr .MeanAggregation [[1, 2], [3, 4]] [0, 0] g f) :=
  fused_block_matches_single [.SumAggregation, .MeanAggregation] 2
    [[1, 2], [3, 4]] [0, 0] 2 (by decide) (by decide) (by decide) 1
    .MeanAggregation (by decide)

theorem output_blocks_in_request_order_witness :
    ∃ slots out, fusedSlots [.MinAggregation, .MaxAggregation,
        .MulAggregation] 1 [[2], [5], [3]] [0, 0, 0] 1 = .ok slots ∧
      forward [.MinAggregation, .MaxAggregation, .MulAggregation] 1
        [[2], [5], [3]] [0, 0, 0] 1 = .ok out ∧
      ∀ g < 1, blockRow 1 2 (out.getD g []) =
        if AggrKind.MulAggregation = .StdAggregation then
          ((slots.getD 2 []).getD g []).map
            (fun (q : ℚ) => Real.sqrt (q : ℝ))
        else ((slots.getD 2 []).getD g []).map (fun (q : ℚ) => (q : ℝ)) :=
  output_blocks_in_request_order [.MinAggregation, .MaxAggregation,
    .MulAggregation] 1 [[2], [5], [3]] [0, 0, 0] 1 (by decide) (by decide)
    (by decide) 2 .MulAggregation (by decide)

theorem forward_permutation_equivariant_witness :
    ∃ out out2, forward [.SumAggregation, .MeanAggregation] 1 [[1], [3]]
        [0, 0] 1 = .ok out ∧
      forward [.MeanAggregation, .SumAggregation] 1 [[1], [3]] [0, 0] 1 =
        .ok out2 ∧
      ∀ g < 1, blockRow 1 0 (out.getD g []) =
        blockRow 1 1 (out2.getD g []) :=
  forward_permutation_equivariant [.SumAggregation, .MeanAggregation]
    [.MeanAggregation, .SumAggregation] 1 [[1], [3]] [0, 0] 1 (by decide)
    (by decide) (by decide) (by decide) 0 1 .SumAggregation (by decide)
    (by decide)

theorem empty_group_rows_zero_except_std_witness :
    ∃ out, forward [.MinAggregation] 1 [[3]] [0] 2 = .ok out ∧
      blockRow 1 0 (out.getD 1 []) =
        (if AggrKind.MinAggregation = .StdAggregation then
          (List.range 1).map
            (fun _ => Real.sqrt (((1 : ℚ) / 100000 : ℚ) : ℝ))
        else (List.range 1).map (fun _ => (0 : ℝ))) :=
  empty_group_rows_zero_except_std [.MinAggregation] 1 [[3]] [0] 2
    (by decide) (by decide) (by decide) 0 1 .MinAggregation (by decide)
    (by decide) (by decide)

theorem std_block_sqrt_clamped_nonneg_witness :
    ∃ out, forward [.StdAggregation] 1 [[1], [2]] [0, 0] 1 = .ok out ∧
      ∀ g < 1,
        blockRow 1 0 (out.getD g []) =
          (List.range 1).map (fun f =>
            Real.sqrt
              ((max (varEntry [[1], [2]] [0, 0] g f) 0 + 1 / 100000 :
                ℚ) : ℝ)) ∧
        ∀ r ∈ blockRow 1 0 (out.getD g []), 0 ≤ r :=
  std_block_sqrt_clamped_nonneg [.StdAggregation] 1 [[1], [2]] [0, 0] 1
    (by decide) (by decide) (by decide) 0 (by decide)

theorem mean_derivation_from_sum_witness :
    ∃ i, aggr_index [.MeanAggregation, .SumAggregation]
        .MeanAggregation = some i ∧
      (.SumAggregation ∈ [AggrKind.MeanAggregation, .SumAggregation] →
        reduce_op1 [.MeanAggregation, .SumAggregation]
          .MeanAggregation = none ∧
        ∃ j, aggr_index [.MeanAggregation, .SumAggregation]
            .SumAggregation = some j ∧
          lookup_op1 [.MeanAggregation, .SumAggregation]
            .MeanAggregation = some (.SumAggregation, j)) ∧
      (.SumAggregation ∉ [AggrKind.MeanAggregation, .SumAggregation] →
        reduce_op1 [.MeanAggregation, .SumAggregation]
          .MeanAggregation = some .sum ∧
        lookup_op1 [.MeanAggregation, .SumAggregation]
          .MeanAggregation = none) ∧
      ∃ out, forward [.MeanAggregation, .SumAggregation] 1 [[2], [4]]
          [0, 0] 1 = .ok out ∧
        ∀ g < 1, blockRow 1 i (out.getD g []) =
          (List.range 1).map (fun f =>
            ((sumEntry [[2], [4]] [0, 0] g f /
              clampAt [0, 0] g : ℚ) : ℝ)) :=
  mean_derivation_from_sum [.MeanAggregation, .SumAggregation] 1 [[2], [4]]
    [0, 0] 1 (by decide) (by decide) (by decide) (by decide)

theorem var_std_reuse_priority_witness :
    (∃ j, aggr_index [AggrKind.MeanAggregation, .VarAggregation,
        .StdAggregation] .MeanAggregation = some j ∧
      lookup_op1 [.MeanAggregation, .VarAggregation, .StdAggregation]
        .VarAggregation = some (.MeanAggregation, j)) ∧
    (∃ j, aggr_index [AggrKind.MeanAggregation, .VarAggregation,
        .StdAggregation] .VarAggregation = some j ∧
      lookup_op1 [.MeanAggregation, .VarAggregation, .StdAggregation]
        .StdAggregation = some (.VarAggregation, j)) :=
  ⟨(var_std_reuse_priority [.MeanAggregation, .VarAggregation,
      .StdAggregation]).1.1 (by decide),
    ((var_std_reuse_priority [.MeanAggregation, .VarAggregation,
      .StdAggregation]).2.1 (by decide)).2⟩

theorem shape_error_on_invalid_input_witness :
    forward [.SumAggregation] 1 [[1]] [0, 1] 2 = .error .shapeError :=
  shape_error_on_invalid_input [.SumAggregation] 1 [[1]] [0, 1] 2
    (by decide) (by decide)

theorem clamped_count_at_least_one_witness :
    1 ≤ clampAt [0] 1 ∧ (countAt [0] 1 = 0 → clampAt [0] 1 = 1) :=
  clamped_count_at_least_one [.MeanAggregation] [0] 1 (by decide)

end FusedAggr
